import Mathlib

/-!
# Verification of the pytket-dqc distribution engine specification

The repository distributes a quantum circuit over a network of servers.
Its public artefacts (documentation, example notebooks, packaging) describe
a hypergraph data model, a Steiner-tree based cost model for a placement,
an allocator/refiner pipeline and dict-based serialization.  The Python
implementation files themselves are not present in the source snapshot,
so every component below is modelled from the specification text and
settled against that model.
-/

namespace PytketDQC

/-! ## Undirected reachability over an edge list

The ServerNetwork topology is an undirected graph given by a coupling
list of server pairs.  Connectivity queries (used by `is_placement` and
by Steiner-tree costing) are computed by a fueled breadth-first
saturation, proved below to decide reflexive-transitive reachability. -/

/-- Propositional adjacency in an undirected edge list: either orientation
of the pair may be recorded. -/
def Adj (edges : List (Nat × Nat)) (a b : Nat) : Prop :=
  (a, b) ∈ edges ∨ (b, a) ∈ edges

instance (edges : List (Nat × Nat)) (a b : Nat) : Decidable (Adj edges a b) := by
  unfold Adj
  infer_instance

/-- Propositional reachability: the reflexive-transitive closure of
adjacency.  This is the mathematical meaning of "connected in the
ServerNetwork's edge set". -/
def Reach (edges : List (Nat × Nat)) (a b : Nat) : Prop :=
  Relation.ReflTransGen (Adj edges) a b

/-- Neighbours of `v` in the edge list, in either orientation. -/
def nbrs (edges : List (Nat × Nat)) (v : Nat) : List Nat :=
  (edges.filterMap fun e => if e.1 = v then some e.2 else none) ++
    (edges.filterMap fun e => if e.2 = v then some e.1 else none)

theorem mem_nbrs {edges : List (Nat × Nat)} {v b : Nat} :
    b ∈ nbrs edges v ↔ Adj edges v b := by
  unfold nbrs Adj
  rw [List.mem_append, List.mem_filterMap, List.mem_filterMap]
  constructor
  · intro h
    rcases h with ⟨e, he, hval⟩ | ⟨e, he, hval⟩
    · by_cases h1 : e.1 = v
      · simp only [h1, if_pos, Option.some.injEq] at hval
        left
        have : (v, b) = e := Prod.ext h1.symm hval.symm
        rwa [this]
      · simp [h1] at hval
    · by_cases h2 : e.2 = v
      · simp only [h2, if_pos, Option.some.injEq] at hval
        right
        have : (b, v) = e := Prod.ext hval.symm h2.symm
        rwa [this]
      · simp [h2] at hval
  · intro h
    rcases h with h | h
    · exact Or.inl ⟨(v, b), h, by simp⟩
    · exact Or.inr ⟨(b, v), h, by simp⟩

/-- One saturation step: add all neighbours of current members. -/
def step (edges : List (Nat × Nat)) (s : List Nat) : List Nat :=
  (s ++ s.foldr (fun v acc => nbrs edges v ++ acc) []) |>.dedup

theorem mem_flat_nbrs {edges : List (Nat × Nat)} {s : List Nat} {b : Nat} :
    b ∈ s.foldr (fun v acc => nbrs edges v ++ acc) [] ↔
      ∃ a ∈ s, Adj edges a b := by
  induction s with
  | nil => simp
  | cons x xs ih =>
    simp only [List.foldr_cons, List.mem_append, ih]
    constructor
    · intro h
      rcases h with h | ⟨a, ha, hadj⟩
      · exact ⟨x, List.mem_cons_self x xs, mem_nbrs.mp h⟩
      · exact ⟨a, List.mem_cons_of_mem _ ha, hadj⟩
    · rintro ⟨a, ha, hadj⟩
      rcases List.mem_cons.mp ha with rfl | hmem
      · exact Or.inl (mem_nbrs.mpr hadj)
      · exact Or.inr ⟨a, hmem, hadj⟩

theorem mem_step {edges : List (Nat × Nat)} {s : List Nat} {b : Nat} :
    b ∈ step edges s ↔ b ∈ s ∨ ∃ a ∈ s, Adj edges a b := by
  unfold step
  rw [List.mem_dedup, List.mem_append, mem_flat_nbrs]

/-- Fueled reachable set from a start vertex. -/
def reachSet (edges : List (Nat × Nat)) : Nat → Nat → List Nat
  | 0, a => [a]
  | n + 1, a => step edges (reachSet edges n a)

theorem subset_step {edges : List (Nat × Nat)} {s : List Nat} :
    ∀ b ∈ s, b ∈ step edges s := fun _ hb => mem_step.mpr (Or.inl hb)

theorem step_mono {edges : List (Nat × Nat)} {s t : List Nat}
    (h : ∀ x ∈ s, x ∈ t) : ∀ b ∈ step edges s, b ∈ step edges t := by
  intro b hb
  rcases mem_step.mp hb with h1 | ⟨a, ha, hadj⟩
  · exact mem_step.mpr (Or.inl (h b h1))
  · exact mem_step.mpr (Or.inr ⟨a, h a ha, hadj⟩)

theorem reachSet_sound {edges : List (Nat × Nat)} :
    ∀ {n a b : Nat}, b ∈ reachSet edges n a → Reach edges a b := by
  intro n
  induction n with
  | zero =>
    intro a b hb
    simp only [reachSet, List.mem_singleton] at hb
    subst hb
    exact Relation.ReflTransGen.refl
  | succ m ih =>
    intro a b hb
    rcases mem_step.mp hb with h1 | ⟨c, hc, hadj⟩
    · exact ih h1
    · exact Relation.ReflTransGen.tail (ih hc) hadj

theorem reachSet_mono_fuel {edges : List (Nat × Nat)} {a : Nat} :
    ∀ {m n : Nat}, m ≤ n → ∀ b ∈ reachSet edges m a, b ∈ reachSet edges n a := by
  intro m n h
  induction h with
  | refl => intro b hb; exact hb
  | step _ ih =>
    intro b hb
    exact subset_step b (ih b hb)

theorem reach_mem_reachSet {edges : List (Nat × Nat)} {a b : Nat}
    (h : Reach edges a b) : ∃ n, b ∈ reachSet edges n a := by
  induction h with
  | refl => exact ⟨0, by simp [reachSet]⟩
  | tail _ hadj ih =>
    rcases ih with ⟨n, hn⟩
    exact ⟨n + 1, mem_step.mpr (Or.inr ⟨_, hn, hadj⟩)⟩

/-- Universe of vertices that saturation can ever reach: the start vertex
together with every endpoint mentioned in the edge list. -/
def vertexUniverse (edges : List (Nat × Nat)) (a : Nat) : List Nat :=
  (a :: edges.foldr (fun e acc => e.1 :: e.2 :: acc) []).dedup

theorem endpoints_mem_universe {edges : List (Nat × Nat)} {a x y : Nat}
    (h : (x, y) ∈ edges) :
    x ∈ vertexUniverse edges a ∧ y ∈ vertexUniverse edges a := by
  unfold vertexUniverse
  rw [List.mem_dedup, List.mem_dedup]
  constructor
  · right
    induction edges with
    | nil => cases h
    | cons e es ih =>
      rcases List.mem_cons.mp h with rfl | hmem
      · exact List.mem_cons_self _ _
      · simp only [List.foldr_cons, List.mem_cons]
        right; right
        exact ih hmem
  · right
    induction edges with
    | nil => cases h
    | cons e es ih =>
      rcases List.mem_cons.mp h with rfl | hmem
      · exact List.mem_cons_of_mem _ (List.mem_cons_self _ _)
      · simp only [List.foldr_cons, List.mem_cons]
        right; right
        exact ih hmem

theorem reachSet_subset_universe {edges : List (Nat × Nat)} {a : Nat} :
    ∀ {n : Nat}, ∀ b ∈ reachSet edges n a, b ∈ vertexUniverse edges a := by
  intro n
  induction n with
  | zero =>
    intro b hb
    simp only [reachSet, List.mem_singleton] at hb
    subst hb
    unfold vertexUniverse
    rw [List.mem_dedup]
    exact List.mem_cons_self _ _
  | succ m ih =>
    intro b hb
    rcases mem_step.mp hb with h1 | ⟨c, _, hadj⟩
    · exact ih b h1
    · rcases hadj with h | h
      · exact (endpoints_mem_universe h).2
      · exact (endpoints_mem_universe h).1

theorem reachSet_stabilize {edges : List (Nat × Nat)} {a : Nat} {n : Nat}
    (h : ∀ b ∈ reachSet edges (n + 1) a, b ∈ reachSet edges n a) :
    ∀ m, n ≤ m → ∀ b ∈ reachSet edges m a, b ∈ reachSet edges n a := by
  intro m hm
  induction hm with
  | refl => intro b hb; exact hb
  | step _ ih =>
    intro b hb
    have hb' := step_mono ih b hb
    exact h b hb'

theorem card_lt_of_proper {s t : List Nat} (hsub : ∀ x ∈ s, x ∈ t)
    (x : Nat) (hxt : x ∈ t) (hxs : x ∉ s) :
    s.toFinset.card < t.toFinset.card := by
  apply Finset.card_lt_card
  constructor
  · intro y hy
    rw [List.mem_toFinset] at hy ⊢
    exact hsub y hy
  · intro hts
    apply hxs
    have := hts (List.mem_toFinset.mpr hxt)
    exact List.mem_toFinset.mp this

theorem exists_stable_fuel (edges : List (Nat × Nat)) (a : Nat) :
    ∃ k, k ≤ (vertexUniverse edges a).length ∧
      ∀ b ∈ reachSet edges (k + 1) a, b ∈ reachSet edges k a := by
  by_contra hcon
  push_neg at hcon
  have hgrow : ∀ k, k ≤ (vertexUniverse edges a).length →
      k + 1 ≤ (reachSet edges k a).toFinset.card := by
    intro k
    induction k with
    | zero =>
      intro _
      simp [reachSet]
    | succ j ih =>
      intro hj
      have hj' : j ≤ (vertexUniverse edges a).length := Nat.le_of_succ_le hj
      have hcard := ih hj'
      rcases hcon j hj' with ⟨x, hx1, hx2⟩
      have hlt : (reachSet edges j a).toFinset.card <
          (reachSet edges (j + 1) a).toFinset.card :=
        card_lt_of_proper subset_step x hx1 hx2
      omega
  set N := (vertexUniverse edges a).length with hN
  have h1 : N + 1 ≤ (reachSet edges N a).toFinset.card := hgrow N (le_refl N)
  have h2 : (reachSet edges N a).toFinset.card ≤
      (vertexUniverse edges a).toFinset.card := by
    apply Finset.card_le_card
    intro y hy
    rw [List.mem_toFinset] at hy ⊢
    exact reachSet_subset_universe y hy
  have h3 : (vertexUniverse edges a).toFinset.card ≤ N := List.toFinset_card_le _
  omega

theorem reach_complete {edges : List (Nat × Nat)} {a b : Nat}
    (h : Reach edges a b) :
    b ∈ reachSet edges (vertexUniverse edges a).length a := by
  rcases reach_mem_reachSet h with ⟨n, hn⟩
  rcases exists_stable_fuel edges a with ⟨k, hk, hstab⟩
  rcases Nat.le_total n (vertexUniverse edges a).length with hle | hge
  · exact reachSet_mono_fuel hle b hn
  · have hkn : k ≤ n := le_trans hk hge
    have := reachSet_stabilize hstab n hkn b hn
    exact reachSet_mono_fuel hk b this

/-- Executable reachability query: `b` is reachable from `a` within the
undirected graph given by the edge list.  Fuel equal to the size of the
vertex universe suffices for completeness. -/
def reachableB (edges : List (Nat × Nat)) (a b : Nat) : Bool :=
  decide (b ∈ reachSet edges (vertexUniverse edges a).length a)

theorem reachableB_iff {edges : List (Nat × Nat)} {a b : Nat} :
    reachableB edges a b = true ↔ Reach edges a b := by
  unfold reachableB
  rw [decide_eq_true_eq]
  exact ⟨reachSet_sound, reach_complete⟩

theorem adj_symm (edges : List (Nat × Nat)) : Symmetric (Adj edges) := by
  intro x y h
  rcases h with h | h
  · exact Or.inr h
  · exact Or.inl h

theorem reach_symm {edges : List (Nat × Nat)} {a b : Nat}
    (h : Reach edges a b) : Reach edges b a :=
  (Relation.ReflTransGen.symmetric (adj_symm edges)) h

theorem reach_trans {edges : List (Nat × Nat)} {a b c : Nat}
    (h1 : Reach edges a b) (h2 : Reach edges b c) : Reach edges a c :=
  Relation.ReflTransGen.trans h1 h2

/-- Reachability in the empty graph is trivial: only the start vertex. -/
theorem reach_nil {a b : Nat} (h : Reach [] a b) : a = b := by
  induction h with
  | refl => rfl
  | tail _ hadj _ => rcases hadj with h | h <;> cases h

/-- A vertex set is connected within the given edge list when every
member is reachable from the first member.  Used both by placement
validation (over the full coupling list) and by Steiner-tree costing
(over candidate edge subsets). -/
def connects (edges : List (Nat × Nat)) (ts : List Nat) : Bool :=
  match ts with
  | [] => true
  | a :: rest => rest.all (fun b => reachableB edges a b)

theorem connects_iff_pairwise {edges : List (Nat × Nat)} {ts : List Nat} :
    connects edges ts = true ↔ ∀ a ∈ ts, ∀ b ∈ ts, Reach edges a b := by
  cases ts with
  | nil => simp [connects]
  | cons x rest =>
    unfold connects
    rw [List.all_eq_true]
    constructor
    · intro h a ha b hb
      have hxa : Reach edges x a := by
        rcases List.mem_cons.mp ha with rfl | hmem
        · exact Relation.ReflTransGen.refl
        · exact reachableB_iff.mp (h a hmem)
      have hxb : Reach edges x b := by
        rcases List.mem_cons.mp hb with rfl | hmem
        · exact Relation.ReflTransGen.refl
        · exact reachableB_iff.mp (h b hmem)
      exact reach_trans (reach_symm hxa) hxb
    · intro h b hb
      exact reachableB_iff.mpr
        (h x (List.mem_cons_self x rest) b (List.mem_cons_of_mem x hb))

/-! ## Data model

Modelled from the spec: the Python implementation of
`pytket_dqc.circuits.hypergraph`, `pytket_dqc.circuits.hypergraph_circuit`,
`pytket_dqc.networks.server_network`/`nisq_network`,
`pytket_dqc.placement` and `pytket_dqc.circuits.distribution` is absent
from the source snapshot; the structures below follow §3/§4 of the spec
and the constructor calls shown in the example notebooks. -/

/-- Modelled from the spec: a general-purpose structure of vertices and
hyperedges, each hyperedge a list of vertex ids. -/
structure Hypergraph where
  vertex_list : List Nat
  hyperedge_list : List (List Nat)
deriving DecidableEq, Repr

/-- Modelled from the spec: a Hypergraph whose vertices are bound to
circuit qubits (resource vertices) and gates (operation vertices).
`qubit_vertices` lists the resource vertices; the remaining entries of
`vertex_list` are operation vertices. -/
structure HypergraphCircuit where
  hypergraph : Hypergraph
  qubit_vertices : List Nat
deriving DecidableEq, Repr

/-- Modelled from the spec: a network of servers given by a coupling
list (undirected server-pair edges) and a server-to-qubit-list mapping;
a server's capacity is the number of qubit slots it holds.  Matches the
`NISQNetwork(server_coupling, server_qubits)` constructor of the
notebooks. -/
structure ServerNetwork where
  server_coupling : List (Nat × Nat)
  server_qubits : List (Nat × List Nat)
deriving DecidableEq, Repr

/-- The list of server ids of the network. -/
def ServerNetwork.server_list (net : ServerNetwork) : List Nat :=
  net.server_qubits.map Prod.fst

/-- Per-server qubit capacity: the number of qubit slots the server
holds (0 for an unknown server id). -/
def ServerNetwork.capacity (net : ServerNetwork) (s : Nat) : Nat :=
  match net.server_qubits.find? (fun p => p.1 = s) with
  | some p => p.2.length
  | none => 0

/-- The total qubit capacity of the network. -/
def ServerNetwork.totalCapacity (net : ServerNetwork) : Nat :=
  (net.server_list.map net.capacity).sum

/-- Modelled from the spec: a Placement maps every vertex to a server
id; stored as an association list, matching the Python dict constructor
`Placement({vertex: server, ...})`. -/
structure Placement where
  placement : List (Nat × Nat)
deriving DecidableEq, Repr

/-- Server assigned to a vertex, if any. -/
def Placement.lookup (p : Placement) (v : Nat) : Option Nat :=
  match p.placement.find? (fun q => q.1 = v) with
  | some q => some q.2
  | none => none

/-- Modelled from the spec: a Distribution composes a HypergraphCircuit,
a Placement and a ServerNetwork. -/
structure Distribution where
  circuit : HypergraphCircuit
  placement : Placement
  network : ServerNetwork
deriving DecidableEq, Repr

/-- The distinct servers touched by the vertices of one hyperedge. -/
def edgeServers (p : Placement) (e : List Nat) : List Nat :=
  (e.filterMap p.lookup).dedup

/-! ## Steiner-tree costing -/

/-- Minimum of a list of naturals, `none` on the empty list. -/
def minNat : List Nat → Option Nat
  | [] => none
  | x :: xs =>
    match minNat xs with
    | none => some x
    | some m => some (min x m)

theorem minNat_isSome {l : List Nat} : l ≠ [] ↔ (minNat l).isSome := by
  cases l with
  | nil => simp [minNat]
  | cons x xs =>
    simp only [ne_eq, reduceCtorEq, not_false_eq_true, true_iff, minNat]
    cases minNat xs <;> simp

theorem minNat_mem {l : List Nat} : ∀ {m : Nat}, minNat l = some m → m ∈ l := by
  induction l with
  | nil => intro m h; cases h
  | cons x xs ih =>
    intro m h
    unfold minNat at h
    cases hxs : minNat xs with
    | none =>
      rw [hxs] at h
      injection h with h
      exact h ▸ List.mem_cons_self x xs
    | some k =>
      rw [hxs] at h
      injection h with h
      rcases le_total x k with hmin | hmin
      · rw [← h, min_eq_left hmin]
        exact List.mem_cons_self x xs
      · rw [← h, min_eq_right hmin]
        exact List.mem_cons_of_mem x (ih hxs)

theorem minNat_le {l : List Nat} : ∀ {m : Nat}, minNat l = some m →
    ∀ x ∈ l, m ≤ x := by
  induction l with
  | nil => intro m _ x hx; cases hx
  | cons y ys ih =>
    intro m h x hx
    unfold minNat at h
    cases hys : minNat ys with
    | none =>
      rw [hys] at h
      injection h with h
      rcases List.mem_cons.mp hx with rfl | hmem
      · omega
      · exfalso
        have hne : ys ≠ [] := by
          intro hnil
          rw [hnil] at hmem
          cases hmem
        rw [minNat_isSome, hys] at hne
        cases hne
    | some k =>
      rw [hys] at h
      injection h with h
      rcases List.mem_cons.mp hx with rfl | hmem
      · omega
      · have := ih hys x hmem
        omega

/-- Modelled from the spec: the weight of a minimum Steiner tree
connecting the terminal servers `ts` within the topology graph — the
least number of coupling edges (each link weighs 1 hop; the NISQNetwork
constructor records no heterogeneous link weights) whose subgraph
connects all the terminals.  Returns 0 when the terminals cannot be
connected at all (validity rules that case out). -/
def steinerCost (coupling : List (Nat × Nat)) (ts : List Nat) : Nat :=
  (minNat ((coupling.sublists.filter (fun sub => connects sub ts)).map
    List.length)).getD 0

/-- Modelled from the spec: `Distribution.cost` computes, for every
hyperedge, the minimum Steiner-tree weight over the servers its
vertices are assigned to, and sums the results; a hyperedge whose
vertices sit on a single server contributes 0. -/
def Distribution.cost (d : Distribution) : Nat :=
  (d.circuit.hypergraph.hyperedge_list.map
    (fun e => steinerCost d.network.server_coupling (edgeServers d.placement e))).sum

/-! ## Placement validation -/

/-- Every registered vertex is assigned to an existing server (the
Placement is a total function into the server set). -/
def coversAllB (hc : HypergraphCircuit) (net : ServerNetwork) (p : Placement) : Bool :=
  hc.hypergraph.vertex_list.all (fun v =>
    match p.lookup v with
    | some s => decide (s ∈ net.server_list)
    | none => false)

/-- Every hyperedge mentions only registered vertices (the
`add_hyperedge` invariant of §4.1). -/
def edgesRegisteredB (hc : HypergraphCircuit) : Bool :=
  hc.hypergraph.hyperedge_list.all
    (fun e => e.all (fun v => decide (v ∈ hc.hypergraph.vertex_list)))

/-- Capacity check: every server hosts at most `capacity` resource
(qubit) vertices.  Operation vertices occupy no slot. -/
def capacityB (hc : HypergraphCircuit) (net : ServerNetwork) (p : Placement) : Bool :=
  net.server_list.all (fun s =>
    decide ((hc.qubit_vertices.filter (fun v => p.lookup v = some s)).length ≤
      net.capacity s))

/-- Connectivity check: the servers touched by each hyperedge can be
joined within the network topology (directly or through intermediate
servers carrying link qubits). -/
def connectivityB (hc : HypergraphCircuit) (net : ServerNetwork) (p : Placement) : Bool :=
  hc.hypergraph.hyperedge_list.all
    (fun e => connects net.server_coupling (edgeServers p e))

/-- Modelled from the spec: `is_placement` checks total coverage and the
capacity and connectivity invariants of §3 without mutating state. -/
def is_placement (hc : HypergraphCircuit) (net : ServerNetwork) (p : Placement) : Bool :=
  coversAllB hc net p && edgesRegisteredB hc && capacityB hc net p &&
    connectivityB hc net p

/-- Modelled from the spec: `Distribution.is_valid` re-checks the §3
invariants of its own placement, failing closed. -/
def Distribution.is_valid (d : Distribution) : Bool :=
  is_placement d.circuit d.network d.placement

/-- The §3 capacity invariant, stated propositionally: every server's
assigned resource-vertex count is at most its capacity. -/
def CapacityInvariant (hc : HypergraphCircuit) (net : ServerNetwork) (p : Placement) : Prop :=
  ∀ s ∈ net.server_list,
    (hc.qubit_vertices.filter (fun v => p.lookup v = some s)).length ≤
      net.capacity s

/-- The §3 connectivity invariant, stated propositionally: for every
hyperedge, the servers its vertices are assigned to are mutually
joined by paths in the server graph (possibly through intermediate
servers, i.e. link/ancilla indirection). -/
def ConnectivityInvariant (hc : HypergraphCircuit) (net : ServerNetwork) (p : Placement) : Prop :=
  ∀ e ∈ hc.hypergraph.hyperedge_list,
    ∀ a ∈ edgeServers p e, ∀ b ∈ edgeServers p e,
      Reach net.server_coupling a b

theorem capacityB_iff {hc : HypergraphCircuit} {net : ServerNetwork} {p : Placement} :
    capacityB hc net p = true ↔ CapacityInvariant hc net p := by
  unfold capacityB CapacityInvariant
  rw [List.all_eq_true]
  constructor
  · intro h s hs
    exact of_decide_eq_true (h s hs)
  · intro h s hs
    exact decide_eq_true (h s hs)

theorem connectivityB_iff {hc : HypergraphCircuit} {net : ServerNetwork} {p : Placement} :
    connectivityB hc net p = true ↔ ConnectivityInvariant hc net p := by
  unfold connectivityB ConnectivityInvariant
  rw [List.all_eq_true]
  constructor
  · intro h e he
    exact (connects_iff_pairwise).mp (h e he)
  · intro h e he
    exact (connects_iff_pairwise).mpr (h e he)

theorem valid_lookup {hc : HypergraphCircuit} {net : ServerNetwork} {p : Placement}
    (hcov : coversAllB hc net p = true) {v : Nat}
    (hv : v ∈ hc.hypergraph.vertex_list) :
    ∃ s, p.lookup v = some s ∧ s ∈ net.server_list := by
  unfold coversAllB at hcov
  rw [List.all_eq_true] at hcov
  have := hcov v hv
  cases hl : p.lookup v with
  | none => rw [hl] at this; cases this
  | some s =>
    rw [hl] at this
    exact ⟨s, rfl, of_decide_eq_true this⟩

/-! ## Cost lemmas -/

theorem connects_nil_of_short {ts : List Nat} (h : ts.length ≤ 1) :
    connects [] ts = true := by
  cases ts with
  | nil => rfl
  | cons x rest =>
    cases rest with
    | nil => rfl
    | cons y r => simp at h

/-- A hyperedge touching at most one server costs nothing: the empty
subgraph already connects its terminal set. -/
theorem steinerCost_eq_zero_of_short {coupling : List (Nat × Nat)} {ts : List Nat}
    (h : ts.length ≤ 1) : steinerCost coupling ts = 0 := by
  unfold steinerCost
  have hmem0 : (0 : Nat) ∈ (coupling.sublists.filter
      (fun sub => connects sub ts)).map List.length := by
    rw [List.mem_map]
    refine ⟨[], ?_, rfl⟩
    rw [List.mem_filter]
    exact ⟨List.mem_sublists.mpr (List.nil_sublist _), connects_nil_of_short h⟩
  have hne : (coupling.sublists.filter (fun sub => connects sub ts)).map
      List.length ≠ [] := by
    intro hnil
    rw [hnil] at hmem0
    cases hmem0
  rw [minNat_isSome] at hne
  cases hmin : minNat ((coupling.sublists.filter
      (fun sub => connects sub ts)).map List.length) with
  | none => rw [hmin] at hne; cases hne
  | some m =>
    have := minNat_le hmin 0 hmem0
    simp only [Option.getD_some]
    omega

/-- A hyperedge whose terminals include two distinct servers which the
network can join costs at least one ebit. -/
theorem steinerCost_pos {coupling : List (Nat × Nat)} {ts : List Nat}
    {s₁ s₂ : Nat} (h1 : s₁ ∈ ts) (h2 : s₂ ∈ ts) (hne : s₁ ≠ s₂)
    (hconn : connects coupling ts = true) :
    1 ≤ steinerCost coupling ts := by
  unfold steinerCost
  have hmemfull : coupling.length ∈ (coupling.sublists.filter
      (fun sub => connects sub ts)).map List.length := by
    rw [List.mem_map]
    refine ⟨coupling, ?_, rfl⟩
    rw [List.mem_filter]
    exact ⟨List.mem_sublists.mpr (List.Sublist.refl _), hconn⟩
  have hnonnil : (coupling.sublists.filter (fun sub => connects sub ts)).map
      List.length ≠ [] := by
    intro hnil
    rw [hnil] at hmemfull
    cases hmemfull
  rw [minNat_isSome] at hnonnil
  cases hmin : minNat ((coupling.sublists.filter
      (fun sub => connects sub ts)).map List.length) with
  | none => rw [hmin] at hnonnil; cases hnonnil
  | some m =>
    simp only [Option.getD_some]
    have hm := minNat_mem hmin
    rw [List.mem_map] at hm
    rcases hm with ⟨sub, hsub, hlen⟩
    rw [List.mem_filter] at hsub
    rcases hsub with ⟨_, hsubconn⟩
    cases hsubnil : sub with
    | nil =>
      exfalso
      rw [hsubnil] at hsubconn
      have := (connects_iff_pairwise).mp hsubconn s₁ h1 s₂ h2
      exact hne (reach_nil this)
    | cons x xs =>
      rw [hsubnil] at hlen
      simp only [List.length_cons] at hlen
      omega

/-- All elements of a pairwise-equal list collapse to at most one
element after deduplication. -/
theorem dedup_length_le_one {l : List Nat}
    (h : ∀ x ∈ l, ∀ y ∈ l, x = y) : l.dedup.length ≤ 1 := by
  cases hd : l.dedup with
  | nil => simp
  | cons x rest =>
    cases hrest : rest with
    | nil => simp
    | cons y r =>
      exfalso
      have hnodup : (l.dedup).Nodup := List.nodup_dedup l
      rw [hd, hrest] at hnodup
      have hx : x ∈ l := by
        rw [← List.mem_dedup, hd, hrest]
        exact List.mem_cons_self _ _
      have hy : y ∈ l := by
        rw [← List.mem_dedup, hd, hrest]
        exact List.mem_cons_of_mem _ (List.mem_cons_self _ _)
      have hxy : x = y := h x hx y hy
      rw [List.nodup_cons] at hnodup
      exact hnodup.1 (hxy ▸ List.mem_cons_self y r)

theorem mem_edgeServers {p : Placement} {e : List Nat} {s : Nat} :
    s ∈ edgeServers p e ↔ ∃ v ∈ e, p.lookup v = some s := by
  unfold edgeServers
  rw [List.mem_dedup, List.mem_filterMap]

/-- A candidate edge subset connects a terminal set when its members are
mutually reachable using only its own edges. -/
def ConnectsProp (sub : List (Nat × Nat)) (ts : List Nat) : Prop :=
  ∀ a ∈ ts, ∀ b ∈ ts, Reach sub a b

/-- `w` is the weight of a minimum-weight Steiner tree for the terminal
set `ts` in the topology graph: some subset of the coupling edges of
total weight `w` connects all terminals, and no connecting subset is
lighter. -/
def IsMinSteinerTreeWeight (coupling : List (Nat × Nat)) (ts : List Nat)
    (w : Nat) : Prop :=
  (∃ sub, sub.Sublist coupling ∧ ConnectsProp sub ts ∧ sub.length = w) ∧
    ∀ sub, sub.Sublist coupling → ConnectsProp sub ts → w ≤ sub.length

theorem connects_iff_prop {sub : List (Nat × Nat)} {ts : List Nat} :
    connects sub ts = true ↔ ConnectsProp sub ts :=
  connects_iff_pairwise

/-- Whenever the full coupling graph joins the terminals at all,
`steinerCost` returns exactly the minimum Steiner-tree weight. -/
theorem steinerCost_isMin {coupling : List (Nat × Nat)} {ts : List Nat}
    (hconn : connects coupling ts = true) :
    IsMinSteinerTreeWeight coupling ts (steinerCost coupling ts) := by
  unfold steinerCost
  have hmemfull : coupling.length ∈ (coupling.sublists.filter
      (fun sub => connects sub ts)).map List.length := by
    rw [List.mem_map]
    refine ⟨coupling, ?_, rfl⟩
    rw [List.mem_filter]
    exact ⟨List.mem_sublists.mpr (List.Sublist.refl _), hconn⟩
  have hnonnil : (coupling.sublists.filter (fun sub => connects sub ts)).map
      List.length ≠ [] := by
    intro hnil
    rw [hnil] at hmemfull
    cases hmemfull
  rw [minNat_isSome] at hnonnil
  cases hmin : minNat ((coupling.sublists.filter
      (fun sub => connects sub ts)).map List.length) with
  | none => rw [hmin] at hnonnil; cases hnonnil
  | some m =>
    simp only [Option.getD_some]
    constructor
    · have hm := minNat_mem hmin
      rw [List.mem_map] at hm
      rcases hm with ⟨sub, hsub, hlen⟩
      rw [List.mem_filter] at hsub
      exact ⟨sub, List.mem_sublists.mp hsub.1, connects_iff_prop.mp hsub.2, hlen⟩
    · intro sub hsubl hsubc
      apply minNat_le hmin
      rw [List.mem_map]
      refine ⟨sub, ?_, rfl⟩
      rw [List.mem_filter]
      exact ⟨List.mem_sublists.mpr hsubl, connects_iff_prop.mpr hsubc⟩

/-- The hyperedges whose vertices span more than one server. -/
def spanningEdges (d : Distribution) : List (List Nat) :=
  d.circuit.hypergraph.hyperedge_list.filter
    (fun e => decide (2 ≤ (edgeServers d.placement e).length))

theorem sum_map_eq_sum_filter {α : Type} (l : List α) (f : α → Nat)
    (p : α → Bool) (h : ∀ x ∈ l, p x = false → f x = 0) :
    (l.map f).sum = ((l.filter p).map f).sum := by
  induction l with
  | nil => rfl
  | cons x xs ih =>
    have hxs := ih (fun y hy => h y (List.mem_cons_of_mem x hy))
    cases hp : p x with
    | true => simp [List.filter_cons, hp, hxs]
    | false =>
      simp [List.filter_cons, hp, hxs]
      exact h x (List.mem_cons_self x xs) hp

theorem natSum_zero_mem {l : List Nat} (h : l.sum = 0) : ∀ x ∈ l, x = 0 := by
  induction l with
  | nil => intro x hx; cases hx
  | cons y ys ih =>
    rw [List.sum_cons] at h
    intro x hx
    rcases List.mem_cons.mp hx with rfl | hmem
    · omega
    · exact ih (by omega) x hmem

/-- C1 — `cost()` sums, over every hyperedge spanning more than one
server, the edge count of a minimum-weight Steiner tree connecting the
servers touched by that hyperedge within the topology graph (each
coupling link weighing one hop, the NISQNetwork construction recording
no heterogeneous link weights). -/
theorem cost_eq_steiner_sum (d : Distribution) (h : d.is_valid = true) :
    d.cost = ((spanningEdges d).map
      (fun e => steinerCost d.network.server_coupling (edgeServers d.placement e))).sum
    ∧ ∀ e ∈ spanningEdges d,
        IsMinSteinerTreeWeight d.network.server_coupling (edgeServers d.placement e)
          (steinerCost d.network.server_coupling (edgeServers d.placement e)) := by
  unfold Distribution.is_valid is_placement at h
  rw [Bool.and_eq_true, Bool.and_eq_true, Bool.and_eq_true] at h
  have hconn := h.2
  unfold connectivityB at hconn
  rw [List.all_eq_true] at hconn
  constructor
  · unfold Distribution.cost spanningEdges
    apply sum_map_eq_sum_filter
    intro e _ hp
    apply steinerCost_eq_zero_of_short
    rw [decide_eq_false_iff_not] at hp
    omega
  · intro e he
    unfold spanningEdges at he
    rw [List.mem_filter] at he
    exact steinerCost_isMin (hconn e he.1)

/-- C1 witness: a concrete valid two-qubit Distribution on a three-server
line network, taken from the basic-usage notebook. -/
def exampleNetwork : ServerNetwork :=
  { server_coupling := [(0, 1), (0, 2)],
    server_qubits := [(0, [0]), (1, [1]), (2, [2])] }

def exampleCircuit : HypergraphCircuit :=
  { hypergraph :=
      { vertex_list := [0, 1, 2, 3],
        hyperedge_list := [[0, 2, 3], [1, 2, 3]] },
    qubit_vertices := [0, 1] }

def exampleDistribution : Distribution :=
  { circuit := exampleCircuit,
    placement := { placement := [(0, 1), (1, 2), (2, 0), (3, 0)] },
    network := exampleNetwork }

theorem cost_eq_steiner_sum_witness :
    exampleDistribution.is_valid = true ∧
      (exampleDistribution.cost = ((spanningEdges exampleDistribution).map
        (fun e => steinerCost exampleDistribution.network.server_coupling
          (edgeServers exampleDistribution.placement e))).sum
      ∧ ∀ e ∈ spanningEdges exampleDistribution,
          IsMinSteinerTreeWeight exampleDistribution.network.server_coupling
            (edgeServers exampleDistribution.placement e)
            (steinerCost exampleDistribution.network.server_coupling
              (edgeServers exampleDistribution.placement e))) :=
  ⟨by decide, cost_eq_steiner_sum exampleDistribution (by decide)⟩

/-- C2 — for every valid Distribution the cost is a non-negative
number, and it vanishes exactly when every hyperedge's vertices are
assigned to a single server by the Placement. -/
theorem cost_nonneg_zero_iff_local (d : Distribution) (h : d.is_valid = true) :
    0 ≤ d.cost ∧
      (d.cost = 0 ↔ ∀ e ∈ d.circuit.hypergraph.hyperedge_list,
        ∀ u ∈ e, ∀ v ∈ e, d.placement.lookup u = d.placement.lookup v) := by
  unfold Distribution.is_valid is_placement at h
  rw [Bool.and_eq_true, Bool.and_eq_true, Bool.and_eq_true] at h
  obtain ⟨⟨⟨hcov, hreg⟩, _⟩, hconn⟩ := h
  unfold edgesRegisteredB at hreg
  rw [List.all_eq_true] at hreg
  unfold connectivityB at hconn
  rw [List.all_eq_true] at hconn
  refine ⟨Nat.zero_le _, ?_⟩
  constructor
  · intro hc0 e he u hu v hv
    have hue : u ∈ d.circuit.hypergraph.vertex_list := by
      have := hreg e he
      rw [List.all_eq_true] at this
      exact of_decide_eq_true (this u hu)
    have hve : v ∈ d.circuit.hypergraph.vertex_list := by
      have := hreg e he
      rw [List.all_eq_true] at this
      exact of_decide_eq_true (this v hv)
    rcases valid_lookup hcov hue with ⟨su, hsu, _⟩
    rcases valid_lookup hcov hve with ⟨sv, hsv, _⟩
    rw [hsu, hsv]
    by_contra hne
    have hne' : su ≠ sv := by
      intro heq
      exact hne (by rw [heq])
    have hmu : su ∈ edgeServers d.placement e :=
      mem_edgeServers.mpr ⟨u, hu, hsu⟩
    have hmv : sv ∈ edgeServers d.placement e :=
      mem_edgeServers.mpr ⟨v, hv, hsv⟩
    have hpos : 1 ≤ steinerCost d.network.server_coupling
        (edgeServers d.placement e) :=
      steinerCost_pos hmu hmv hne' (hconn e he)
    have hc0' : (d.circuit.hypergraph.hyperedge_list.map
        (fun e => steinerCost d.network.server_coupling
          (edgeServers d.placement e))).sum = 0 := hc0
    have hzero : steinerCost d.network.server_coupling
        (edgeServers d.placement e) = 0 := by
      apply natSum_zero_mem hc0'
      rw [List.mem_map]
      exact ⟨e, he, rfl⟩
    omega
  · intro hloc
    unfold Distribution.cost
    apply List.sum_eq_zero
    intro x hx
    rw [List.mem_map] at hx
    rcases hx with ⟨e, he, rfl⟩
    apply steinerCost_eq_zero_of_short
    apply dedup_length_le_one
    intro x hx y hy
    rw [List.mem_filterMap] at hx hy
    rcases hx with ⟨u, hu, hxu⟩
    rcases hy with ⟨v, hv, hyv⟩
    have := hloc e he u hu v hv
    rw [hxu, hyv] at this
    injection this

theorem cost_nonneg_zero_iff_local_witness :
    exampleDistribution.is_valid = true ∧
      (0 ≤ exampleDistribution.cost ∧
        (exampleDistribution.cost = 0 ↔
          ∀ e ∈ exampleDistribution.circuit.hypergraph.hyperedge_list,
            ∀ u ∈ e, ∀ v ∈ e,
              exampleDistribution.placement.lookup u =
                exampleDistribution.placement.lookup v)) :=
  ⟨by decide, cost_nonneg_zero_iff_local exampleDistribution (by decide)⟩

/-- C6 — for a Placement that totally covers the circuit's vertices,
`is_placement` returns true exactly when the §3 capacity and
connectivity invariants hold, and a Distribution built from a Placement
violating either invariant reports `is_valid() = false`. -/
theorem is_placement_iff_invariants (hc : HypergraphCircuit)
    (net : ServerNetwork) (p : Placement)
    (hcov : coversAllB hc net p = true) (hreg : edgesRegisteredB hc = true) :
    (is_placement hc net p = true ↔
      CapacityInvariant hc net p ∧ ConnectivityInvariant hc net p)
    ∧ (¬(CapacityInvariant hc net p ∧ ConnectivityInvariant hc net p) →
        (Distribution.mk hc p net).is_valid = false) := by
  constructor
  · unfold is_placement
    rw [hcov, hreg]
    simp only [Bool.true_and, Bool.and_eq_true]
    rw [capacityB_iff, connectivityB_iff]
  · intro hinv
    unfold Distribution.is_valid
    simp only []
    cases hval : is_placement hc net p with
    | false => rfl
    | true =>
      exfalso
      unfold is_placement at hval
      rw [Bool.and_eq_true, Bool.and_eq_true, Bool.and_eq_true] at hval
      exact hinv ⟨capacityB_iff.mp hval.1.2, connectivityB_iff.mp hval.2⟩

theorem is_placement_iff_invariants_witness :
    (coversAllB exampleCircuit exampleNetwork exampleDistribution.placement = true ∧
      edgesRegisteredB exampleCircuit = true) ∧
      ((is_placement exampleCircuit exampleNetwork exampleDistribution.placement = true ↔
        CapacityInvariant exampleCircuit exampleNetwork exampleDistribution.placement ∧
          ConnectivityInvariant exampleCircuit exampleNetwork
            exampleDistribution.placement)
      ∧ (¬(CapacityInvariant exampleCircuit exampleNetwork
            exampleDistribution.placement ∧
          ConnectivityInvariant exampleCircuit exampleNetwork
            exampleDistribution.placement) →
          (Distribution.mk exampleCircuit exampleDistribution.placement
            exampleNetwork).is_valid = false)) :=
  ⟨⟨by decide, by decide⟩,
    is_placement_iff_invariants exampleCircuit exampleNetwork
      exampleDistribution.placement (by decide) (by decide)⟩

/-! ## Refiners

Modelled from the spec: the Python `pytket_dqc.refiners` package is
absent from the source snapshot.  §4.5 fixes the common contract —
`refine(distribution) -> bool` mutates in place, returns whether any
change was made, never produces an invalid Distribution and never
increases the cost of a valid one — and §9 recommends enforcing the
monotonic-cost invariant defensively inside each refiner.  Each
primitive refiner is therefore modelled as a local-search move (its
search strategy, absent from the snapshot, is an arbitrary function)
guarded by that contract, while the two combinators are modelled
structurally. -/

/-- Commit a candidate move only when it is valid and does not increase
cost; otherwise leave the Distribution untouched and report no change. -/
def guardedRefine (move : Distribution → Option Distribution)
    (d : Distribution) : Distribution × Bool :=
  match move d with
  | none => (d, false)
  | some d' =>
    if d'.is_valid = true ∧ d'.cost ≤ d.cost then (d', true) else (d, false)

/-- Modelled from the spec: the Refiner family of §4.5.  The six
primitive refiners carry their (unspecified) move-search function; the
`sequence` and `repeatR` constructors model `SequenceRefiner(list)` and
`RepeatRefiner(inner)` (with its iteration cap). -/
inductive Refiner : Type
  | vertexCover (move : Distribution → Option Distribution)
  | boundaryReallocation (move : Distribution → Option Distribution)
  | detachedGates (move : Distribution → Option Distribution)
  | neighbouringDTypeMerge (move : Distribution → Option Distribution)
  | intertwinedDTypeMerge (move : Distribution → Option Distribution)
  | eagerHTypeMerge (move : Distribution → Option Distribution)
  | sequence (rs : List Refiner)
  | repeatR (inner : Refiner) (cap : Nat)

/-- Modelled from the spec: `RepeatRefiner` applies the inner refine
repeatedly until it reports no change or the iteration cap is hit,
aborting (treated as converged) if cost ever increases.  Returns the
final Distribution, the accumulated changed flag, and the number of
inner calls made. -/
def repeatAux (f : Distribution → Distribution × Bool) :
    Nat → Distribution → Bool → (Distribution × Bool) × Nat
  | 0, d, acc => ((d, acc), 0)
  | n + 1, d, acc =>
    match f d with
    | (d', false) => ((d', acc), 1)
    | (d', true) =>
      if d.cost < d'.cost then ((d, acc), 1)
      else
        let r := repeatAux f n d' true
        (r.1, r.2 + 1)

/-- Run a refiner: the refined Distribution and whether any change was
made. -/
def runRefiner : Refiner → Distribution → Distribution × Bool
  | .vertexCover move, d => guardedRefine move d
  | .boundaryReallocation move, d => guardedRefine move d
  | .detachedGates move, d => guardedRefine move d
  | .neighbouringDTypeMerge move, d => guardedRefine move d
  | .intertwinedDTypeMerge move, d => guardedRefine move d
  | .eagerHTypeMerge move, d => guardedRefine move d
  | .sequence [], d => (d, false)
  | .sequence (r :: rs), d =>
    let p := runRefiner r d
    let q := runRefiner (.sequence rs) p.1
    (q.1, p.2 || q.2)
  | .repeatR inner cap, d => (repeatAux (runRefiner inner) (cap + 1) d false).1

/-- The number of inner-refine calls a `RepeatRefiner` performs. -/
def repeatInnerCalls (inner : Refiner) (cap : Nat) (d : Distribution) : Nat :=
  (repeatAux (runRefiner inner) (cap + 1) d false).2

theorem guardedRefine_cost_le (move : Distribution → Option Distribution)
    (d : Distribution) : (guardedRefine move d).1.cost ≤ d.cost := by
  unfold guardedRefine
  cases move d with
  | none => exact le_refl _
  | some d' =>
    by_cases hcond : d'.is_valid = true ∧ d'.cost ≤ d.cost
    · simp only [if_pos hcond]
      exact hcond.2
    · simp only [if_neg hcond]
      exact le_refl _

theorem guardedRefine_valid (move : Distribution → Option Distribution)
    (d : Distribution) (h : d.is_valid = true) :
    (guardedRefine move d).1.is_valid = true := by
  unfold guardedRefine
  cases move d with
  | none => exact h
  | some d' =>
    by_cases hcond : d'.is_valid = true ∧ d'.cost ≤ d.cost
    · simp only [if_pos hcond]
      exact hcond.1
    · simp only [if_neg hcond]
      exact h

theorem repeatAux_cost_le (f : Distribution → Distribution × Bool)
    (hf : ∀ x, (f x).1.cost ≤ x.cost) :
    ∀ (n : Nat) (d : Distribution) (acc : Bool),
      (repeatAux f n d acc).1.1.cost ≤ d.cost := by
  intro n
  induction n with
  | zero => intro d acc; exact le_refl _
  | succ m ih =>
    intro d acc
    unfold repeatAux
    cases hfd : f d with
    | mk d' b =>
      cases b with
      | false =>
        simp only []
        have := hf d
        rw [hfd] at this
        exact this
      | true =>
        simp only []
        by_cases hcost : d.cost < d'.cost
        · simp only [if_pos hcost]
          exact le_refl _
        · simp only [if_neg hcost]
          have h1 := ih d' true
          have h2 := hf d
          rw [hfd] at h2
          exact le_trans h1 h2

theorem repeatAux_valid (f : Distribution → Distribution × Bool)
    (hf : ∀ x, x.is_valid = true → (f x).1.is_valid = true) :
    ∀ (n : Nat) (d : Distribution) (acc : Bool), d.is_valid = true →
      (repeatAux f n d acc).1.1.is_valid = true := by
  intro n
  induction n with
  | zero => intro d acc h; exact h
  | succ m ih =>
    intro d acc h
    unfold repeatAux
    cases hfd : f d with
    | mk d' b =>
      cases b with
      | false =>
        simp only []
        have := hf d h
        rw [hfd] at this
        exact this
      | true =>
        simp only []
        by_cases hcost : d.cost < d'.cost
        · simp only [if_pos hcost]
          exact h
        · simp only [if_neg hcost]
          apply ih d' true
          have := hf d h
          rw [hfd] at this
          exact this

theorem runRefiner_cost_le :
    ∀ (r : Refiner) (d : Distribution), (runRefiner r d).1.cost ≤ d.cost
  | .vertexCover move, d => by
    simp only [runRefiner]
    exact guardedRefine_cost_le move d
  | .boundaryReallocation move, d => by
    simp only [runRefiner]
    exact guardedRefine_cost_le move d
  | .detachedGates move, d => by
    simp only [runRefiner]
    exact guardedRefine_cost_le move d
  | .neighbouringDTypeMerge move, d => by
    simp only [runRefiner]
    exact guardedRefine_cost_le move d
  | .intertwinedDTypeMerge move, d => by
    simp only [runRefiner]
    exact guardedRefine_cost_le move d
  | .eagerHTypeMerge move, d => by
    simp only [runRefiner]
    exact guardedRefine_cost_le move d
  | .sequence [], d => by
    simp only [runRefiner]
    exact le_refl _
  | .sequence (r :: rs), d => by
    have h1 := runRefiner_cost_le r d
    have h2 := runRefiner_cost_le (.sequence rs) (runRefiner r d).1
    simp only [runRefiner]
    exact le_trans h2 h1
  | .repeatR inner cap, d => by
    have hf : ∀ x, (runRefiner inner x).1.cost ≤ x.cost :=
      fun x => runRefiner_cost_le inner x
    simp only [runRefiner]
    exact repeatAux_cost_le (runRefiner inner) hf (cap + 1) d false

theorem runRefiner_valid :
    ∀ (r : Refiner) (d : Distribution), d.is_valid = true →
      (runRefiner r d).1.is_valid = true
  | .vertexCover move, d, h => by
    simp only [runRefiner]
    exact guardedRefine_valid move d h
  | .boundaryReallocation move, d, h => by
    simp only [runRefiner]
    exact guardedRefine_valid move d h
  | .detachedGates move, d, h => by
    simp only [runRefiner]
    exact guardedRefine_valid move d h
  | .neighbouringDTypeMerge move, d, h => by
    simp only [runRefiner]
    exact guardedRefine_valid move d h
  | .intertwinedDTypeMerge move, d, h => by
    simp only [runRefiner]
    exact guardedRefine_valid move d h
  | .eagerHTypeMerge move, d, h => by
    simp only [runRefiner]
    exact guardedRefine_valid move d h
  | .sequence [], d, h => by
    simp only [runRefiner]
    exact h
  | .sequence (r :: rs), d, h => by
    have h1 := runRefiner_valid r d h
    have h2 := runRefiner_valid (.sequence rs) (runRefiner r d).1 h1
    simp only [runRefiner]
    exact h2
  | .repeatR inner cap, d, h => by
    have hf : ∀ x, x.is_valid = true → (runRefiner inner x).1.is_valid = true :=
      fun x hx => runRefiner_valid inner x hx
    simp only [runRefiner]
    exact repeatAux_valid (runRefiner inner) hf (cap + 1) d false h

/-- C3 — every Refiner of the family (VertexCover, BoundaryReallocation,
DetachedGates, NeighbouringDTypeMerge, IntertwinedDTypeMerge,
EagerHTypeMerge, SequenceRefiner, RepeatRefiner) never increases the
cost of a valid input Distribution, and keeps it valid. -/
theorem refine_cost_monotone (r : Refiner) (d : Distribution)
    (h : d.is_valid = true) :
    (runRefiner r d).1.cost ≤ d.cost ∧ (runRefiner r d).1.is_valid = true :=
  ⟨runRefiner_cost_le r d, runRefiner_valid r d h⟩

theorem refine_cost_monotone_witness :
    exampleDistribution.is_valid = true ∧
      ((runRefiner (.repeatR (.sequence [.vertexCover (fun _ => none),
          .neighbouringDTypeMerge (fun _ => none)]) 3)
          exampleDistribution).1.cost ≤ exampleDistribution.cost ∧
        (runRefiner (.repeatR (.sequence [.vertexCover (fun _ => none),
          .neighbouringDTypeMerge (fun _ => none)]) 3)
          exampleDistribution).1.is_valid = true) :=
  ⟨by decide,
    refine_cost_monotone
      (.repeatR (.sequence [.vertexCover (fun _ => none),
        .neighbouringDTypeMerge (fun _ => none)]) 3)
      exampleDistribution (by decide)⟩

/-- C8 — a `RepeatRefiner` wrapping an inner refiner whose refine never
reports a change makes exactly one inner call, terminates, and leaves
the Distribution unchanged. -/
theorem repeatRefiner_converged (inner : Refiner) (cap : Nat)
    (d : Distribution) (hfalse : ∀ x, runRefiner inner x = (x, false)) :
    runRefiner (.repeatR inner cap) d = (d, false) ∧
      repeatInnerCalls inner cap d = 1 := by
  have hstep : repeatAux (runRefiner inner) (cap + 1) d false = ((d, false), 1) := by
    unfold repeatAux
    rw [hfalse d]
  constructor
  · simp only [runRefiner]
    rw [hstep]
  · unfold repeatInnerCalls
    rw [hstep]

theorem repeatRefiner_converged_witness :
    (∀ x, runRefiner (.vertexCover (fun _ => none)) x = (x, false)) ∧
      (runRefiner (.repeatR (.vertexCover (fun _ => none)) 7)
          exampleDistribution = (exampleDistribution, false) ∧
        repeatInnerCalls (.vertexCover (fun _ => none)) 7 exampleDistribution = 1) :=
  ⟨fun x => by simp [runRefiner, guardedRefine],
    repeatRefiner_converged (.vertexCover (fun _ => none)) 7
      exampleDistribution (fun x => by simp [runRefiner, guardedRefine])⟩

/-! ## Allocation

Modelled from the spec: the Python `pytket_dqc.allocators` package is
absent from the source snapshot.  §4.4 fixes the common contract —
`allocate(circuit, network, **config) -> Distribution` never returns an
invalid Distribution and fails with InfeasibleNetwork when no valid
placement can be produced (in particular when some resource vertex
cannot fit under any server's capacity).  The Ordered allocator below
greedily assigns resource vertices in decreasing-degree order to the
first server with a free slot, places each operation vertex with the
first already-placed resource it shares a hyperedge with, and
re-validates the result before returning it. -/

/-- The error taxonomy entry raised when no valid placement exists. -/
inductive AllocError : Type
  | infeasibleNetwork
deriving DecidableEq, Repr

/-- Number of hyperedges a vertex belongs to. -/
def degree (hc : HypergraphCircuit) (v : Nat) : Nat :=
  (hc.hypergraph.hyperedge_list.filter (fun e => decide (v ∈ e))).length

/-- Insert into a list kept in decreasing key order. -/
def insertDesc (key : Nat → Nat) (x : Nat) : List Nat → List Nat
  | [] => [x]
  | y :: ys => if key y ≤ key x then x :: y :: ys else y :: insertDesc key x ys

/-- Sort by decreasing key (insertion sort). -/
def sortDesc (key : Nat → Nat) (l : List Nat) : List Nat :=
  l.foldr (insertDesc key) []

/-- Claim a free slot from the first server that has one, returning the
chosen server and the updated remaining capacities. -/
def takeSlot : List (Nat × Nat) → Option (Nat × List (Nat × Nat))
  | [] => none
  | (s, c) :: rest =>
    if 0 < c then some (s, (s, c - 1) :: rest)
    else
      match takeSlot rest with
      | some (s', rest') => some (s', (s, c) :: rest')
      | none => none

/-- Greedily assign each resource vertex a server slot; fails when some
resource vertex cannot fit under any server's remaining capacity. -/
def assignQubits : List (Nat × Nat) → List Nat → Option (List (Nat × Nat))
  | _, [] => some []
  | caps, q :: qs =>
    match takeSlot caps with
    | none => none
    | some (s, caps') =>
      match assignQubits caps' qs with
      | none => none
      | some rest => some ((q, s) :: rest)

/-- First vertex of `e` that already has a server in the partial qubit
placement. -/
def firstAssigned (qp : List (Nat × Nat)) (e : List Nat) : Option Nat :=
  e.findSome? (fun v => (qp.find? (fun r => r.1 = v)).map Prod.snd)

/-- Server chosen for an operation vertex: the server of the first
already-placed resource it shares a hyperedge with, defaulting to the
first server of the network. -/
def gateServer (hc : HypergraphCircuit) (qp : List (Nat × Nat))
    (net : ServerNetwork) (g : Nat) : Nat :=
  match hc.hypergraph.hyperedge_list.findSome?
      (fun e => if g ∈ e then firstAssigned qp e else none) with
  | some s => s
  | none => net.server_list.headD 0

/-- Complete a qubit placement to a full Distribution by placing every
operation vertex with `gateServer`. -/
def gateFill (hc : HypergraphCircuit) (net : ServerNetwork)
    (qp : List (Nat × Nat)) : Distribution :=
  ⟨hc,
    ⟨qp ++ (hc.hypergraph.vertex_list.filter
      (fun v => decide (v ∉ hc.qubit_vertices))).map
        (fun g => (g, gateServer hc qp net g))⟩,
    net⟩

/-- Modelled from the spec: the Ordered allocator. -/
def allocate (hc : HypergraphCircuit) (net : ServerNetwork) :
    Except AllocError Distribution :=
  match assignQubits (net.server_qubits.map (fun p => (p.1, p.2.length)))
      (sortDesc (degree hc) hc.qubit_vertices) with
  | none => .error .infeasibleNetwork
  | some qp =>
    if (gateFill hc net qp).is_valid = true then .ok (gateFill hc net qp)
    else .error .infeasibleNetwork

theorem sum_map_add {α : Type} (l : List α) (f g : α → Nat) :
    (l.map (fun x => f x + g x)).sum = (l.map f).sum + (l.map g).sum := by
  induction l with
  | nil => rfl
  | cons x xs ih =>
    simp only [List.map_cons, List.sum_cons, ih]
    omega

theorem sum_indicator_zero {s₀ : Nat} {ss : List Nat} (h : s₀ ∉ ss) :
    (ss.map (fun s => if s = s₀ then 1 else 0)).sum = 0 := by
  apply List.sum_eq_zero
  intro x hx
  rw [List.mem_map] at hx
  rcases hx with ⟨s, hs, rfl⟩
  have : s ≠ s₀ := fun heq => h (heq ▸ hs)
  simp [this]

theorem sum_indicator_one {s₀ : Nat} {ss : List Nat} (hnd : ss.Nodup)
    (hmem : s₀ ∈ ss) :
    (ss.map (fun s => if s = s₀ then 1 else 0)).sum = 1 := by
  induction ss with
  | nil => cases hmem
  | cons t rest ih =>
    rw [List.nodup_cons] at hnd
    simp only [List.map_cons, List.sum_cons]
    rcases List.mem_cons.mp hmem with rfl | hmem'
    · rw [if_pos rfl, sum_indicator_zero hnd.1]
    · have ht : t ≠ s₀ := fun heq => hnd.1 (heq ▸ hmem')
      rw [if_neg ht, ih hnd.2 hmem']

theorem length_filter_partition (lookup : Nat → Option Nat) :
    ∀ (vs : List Nat) (ss : List Nat), ss.Nodup →
      (∀ v ∈ vs, ∃ s ∈ ss, lookup v = some s) →
      vs.length =
        (ss.map (fun s => (vs.filter (fun v => decide (lookup v = some s))).length)).sum := by
  intro vs
  induction vs with
  | nil =>
    intro ss _ _
    simp only [List.length_nil, List.filter_nil]
    rw [eq_comm]
    apply List.sum_eq_zero
    intro x hx
    rw [List.mem_map] at hx
    rcases hx with ⟨s, _, rfl⟩
    rfl
  | cons v vs' ih =>
    intro ss hnd hall
    rcases hall v (List.mem_cons_self v vs') with ⟨s₀, hs₀, hlook⟩
    have hvs' := ih ss hnd (fun w hw => hall w (List.mem_cons_of_mem v hw))
    have hfilter : ∀ s, ((v :: vs').filter
        (fun w => decide (lookup w = some s))).length =
        (vs'.filter (fun w => decide (lookup w = some s))).length +
          (if s = s₀ then 1 else 0) := by
      intro s
      rw [List.filter_cons]
      by_cases hs : lookup v = some s
      · have hss₀ : s = s₀ := by
          rw [hs] at hlook
          exact Option.some.inj hlook
        simp [hs, hss₀]
      · have hss₀ : s ≠ s₀ := by
          intro heq
          rw [heq] at hs
          exact hs hlook
        simp [hs, hss₀]
    have hmap : (ss.map (fun s => ((v :: vs').filter
        (fun w => decide (lookup w = some s))).length)).sum =
        (ss.map (fun s => (vs'.filter
          (fun w => decide (lookup w = some s))).length)).sum +
          (ss.map (fun s => if s = s₀ then 1 else 0)).sum := by
      rw [← sum_map_add]
      congr 1
      apply List.map_congr_left
      intro s _
      exact hfilter s
    rw [List.length_cons, hmap, sum_indicator_one hnd hs₀, hvs']

theorem sum_map_le {α : Type} (l : List α) (f g : α → Nat)
    (h : ∀ x ∈ l, f x ≤ g x) : (l.map f).sum ≤ (l.map g).sum := by
  induction l with
  | nil => exact le_refl _
  | cons x xs ih =>
    simp only [List.map_cons, List.sum_cons]
    have h1 := h x (List.mem_cons_self x xs)
    have h2 := ih (fun y hy => h y (List.mem_cons_of_mem x hy))
    omega

/-- A valid Distribution can host at most `totalCapacity` resource
vertices: the per-server counts partition the resources and are each
bounded by the server's capacity. -/
theorem valid_respects_totalCapacity (d : Distribution)
    (hqv : ∀ v ∈ d.circuit.qubit_vertices, v ∈ d.circuit.hypergraph.vertex_list)
    (hs : d.network.server_list.Nodup)
    (h : d.is_valid = true) :
    d.circuit.qubit_vertices.length ≤ d.network.totalCapacity := by
  unfold Distribution.is_valid is_placement at h
  rw [Bool.and_eq_true, Bool.and_eq_true, Bool.and_eq_true] at h
  obtain ⟨⟨⟨hcov, _⟩, hcap⟩, _⟩ := h
  have hall : ∀ v ∈ d.circuit.qubit_vertices,
      ∃ s ∈ d.network.server_list, d.placement.lookup v = some s := by
    intro v hv
    rcases valid_lookup hcov (hqv v hv) with ⟨s, h1, h2⟩
    exact ⟨s, h2, h1⟩
  have hpart := length_filter_partition (fun v => d.placement.lookup v)
    d.circuit.qubit_vertices d.network.server_list hs hall
  rw [hpart]
  unfold ServerNetwork.totalCapacity
  apply sum_map_le
  intro s hsmem
  rw [capacityB_iff] at hcap
  exact hcap s hsmem

/-- C4 — the allocator either returns a valid Distribution or fails
with InfeasibleNetwork; in particular it fails whenever the resource
vertices cannot all fit under the servers' capacities. -/
theorem allocate_valid_or_infeasible (hc : HypergraphCircuit)
    (net : ServerNetwork)
    (hqv : ∀ v ∈ hc.qubit_vertices, v ∈ hc.hypergraph.vertex_list)
    (hs : net.server_list.Nodup) :
    (∀ d, allocate hc net = .ok d → d.is_valid = true) ∧
      (net.totalCapacity < hc.qubit_vertices.length →
        allocate hc net = .error .infeasibleNetwork) := by
  constructor
  · intro d hd
    unfold allocate at hd
    cases hassign : assignQubits
        (net.server_qubits.map (fun p => (p.1, p.2.length)))
        (sortDesc (degree hc) hc.qubit_vertices) with
    | none => rw [hassign] at hd; cases hd
    | some qp =>
      rw [hassign] at hd
      dsimp only at hd
      by_cases hv : (gateFill hc net qp).is_valid = true
      · rw [if_pos hv] at hd
        injection hd with hd
        rw [← hd]
        exact hv
      · rw [if_neg hv] at hd
        cases hd
  · intro hcap
    unfold allocate
    cases hassign : assignQubits
        (net.server_qubits.map (fun p => (p.1, p.2.length)))
        (sortDesc (degree hc) hc.qubit_vertices) with
    | none => rfl
    | some qp =>
      by_cases hv : (gateFill hc net qp).is_valid = true
      · exfalso
        have hle := valid_respects_totalCapacity (gateFill hc net qp) hqv hs hv
        dsimp only [gateFill] at hle
        omega
      · dsimp only
        rw [if_neg hv]

theorem allocate_valid_or_infeasible_witness :
    ((∀ v ∈ exampleCircuit.qubit_vertices,
        v ∈ exampleCircuit.hypergraph.vertex_list) ∧
      exampleNetwork.server_list.Nodup) ∧
      ((∀ d, allocate exampleCircuit exampleNetwork = .ok d →
          d.is_valid = true) ∧
        (exampleNetwork.totalCapacity < exampleCircuit.qubit_vertices.length →
          allocate exampleCircuit exampleNetwork = .error .infeasibleNetwork)) :=
  ⟨⟨by decide, by decide⟩,
    allocate_valid_or_infeasible exampleCircuit exampleNetwork
      (by decide) (by decide)⟩

/-! ## Serialization

Modelled from the spec: §6 describes `to_dict`/`from_dict` as mappings
with explicit keys for the vertex list, hyperedge list, server-network
description (coupling list + server-to-qubit mapping) and placement
(vertex-to-server mapping), stable under re-load. -/

/-- The explicit dictionary keys of the persisted format. -/
inductive DKey : Type
  | vertexList
  | hyperedgeList
  | qubitVertices
  | hypergraphKey
  | serverCoupling
  | serverQubits
  | circuitKey
  | placementKey
  | networkKey
deriving DecidableEq, Repr

/-- Values of the persisted format; sub-structures nest as dicts. -/
inductive DictVal : Type
  | natList (l : List Nat)
  | natListList (l : List (List Nat))
  | pairList (l : List (Nat × Nat))
  | serverMap (l : List (Nat × List Nat))
  | dict (d : List (DKey × DictVal))

/-- Key lookup in a persisted dict. -/
def dictFind : List (DKey × DictVal) → DKey → Option DictVal
  | [], _ => none
  | (k, v) :: rest, k' => if k = k' then some v else dictFind rest k'

def Hypergraph.to_dict (h : Hypergraph) : List (DKey × DictVal) :=
  [(.vertexList, .natList h.vertex_list),
    (.hyperedgeList, .natListList h.hyperedge_list)]

def Hypergraph.from_dict (d : List (DKey × DictVal)) : Option Hypergraph :=
  match dictFind d .vertexList, dictFind d .hyperedgeList with
  | some (.natList vl), some (.natListList hl) => some ⟨vl, hl⟩
  | _, _ => none

def HypergraphCircuit.to_dict (hc : HypergraphCircuit) : List (DKey × DictVal) :=
  [(.hypergraphKey, .dict hc.hypergraph.to_dict),
    (.qubitVertices, .natList hc.qubit_vertices)]

def HypergraphCircuit.from_dict (d : List (DKey × DictVal)) :
    Option HypergraphCircuit :=
  match dictFind d .hypergraphKey, dictFind d .qubitVertices with
  | some (.dict hd), some (.natList qv) =>
    match Hypergraph.from_dict hd with
    | some hg => some ⟨hg, qv⟩
    | none => none
  | _, _ => none

def ServerNetwork.to_dict (net : ServerNetwork) : List (DKey × DictVal) :=
  [(.serverCoupling, .pairList net.server_coupling),
    (.serverQubits, .serverMap net.server_qubits)]

def ServerNetwork.from_dict (d : List (DKey × DictVal)) : Option ServerNetwork :=
  match dictFind d .serverCoupling, dictFind d .serverQubits with
  | some (.pairList c), some (.serverMap sq) => some ⟨c, sq⟩
  | _, _ => none

def Distribution.to_dict (d : Distribution) : List (DKey × DictVal) :=
  [(.circuitKey, .dict d.circuit.to_dict),
    (.placementKey, .pairList d.placement.placement),
    (.networkKey, .dict d.network.to_dict)]

def Distribution.from_dict (d : List (DKey × DictVal)) : Option Distribution :=
  match dictFind d .circuitKey, dictFind d .placementKey,
      dictFind d .networkKey with
  | some (.dict cd), some (.pairList p), some (.dict nd) =>
    match HypergraphCircuit.from_dict cd, ServerNetwork.from_dict nd with
    | some hc, some net => some ⟨hc, ⟨p⟩, net⟩
    | _, _ => none
  | _, _, _ => none

/-- C5 — `from_dict(to_dict(x))` reproduces `x` exactly (same vertex
ids, same hyperedge membership, same coupling, qubit map and placement)
for every previously constructed Hypergraph, HypergraphCircuit,
ServerNetwork and Distribution. -/
theorem from_dict_to_dict_roundtrip (hg : Hypergraph)
    (hc : HypergraphCircuit) (net : ServerNetwork) (d : Distribution) :
    Hypergraph.from_dict hg.to_dict = some hg ∧
      HypergraphCircuit.from_dict hc.to_dict = some hc ∧
      ServerNetwork.from_dict net.to_dict = some net ∧
      Distribution.from_dict d.to_dict = some d := by
  refine ⟨rfl, rfl, rfl, rfl⟩

/-! ## Gate set and rebasing

Modelled from the spec: `pytket_dqc.utils.gateset.DQCPass` is absent
from the source snapshot.  The basic-usage notebook states the accepted
gate set is CU1, Rz and H, and that `DQCPass` rebases an arbitrary
circuit into that set; angles are in half-turns. -/

/-- Circuit operations: the accepted vocabulary (CU1, Rz, H) together
with common gates the rebase pass must eliminate. -/
inductive OpGate : Type
  | CU1 (p : Rat) (a b : Nat)
  | Rz (p : Rat) (q : Nat)
  | H (q : Nat)
  | X (q : Nat)
  | CZ (a b : Nat)
  | CY (a b : Nat)
  | CX (a b : Nat)
  | SWAP (a b : Nat)
deriving DecidableEq, Repr

/-- The accepted gate set of the public interface. -/
def inAllowedGateset : OpGate → Bool
  | .CU1 _ _ _ => true
  | .Rz _ _ => true
  | .H _ => true
  | _ => false

/-- Rebase one gate into the CU1/Rz/H vocabulary by the standard
decompositions (CZ = CU1(1); X = H·Rz(1)·H; CX = H-conjugated CZ;
CY = S-conjugated CX; SWAP = three alternating CXs). -/
def rebaseGate : OpGate → List OpGate
  | .CU1 p a b => [.CU1 p a b]
  | .Rz p q => [.Rz p q]
  | .H q => [.H q]
  | .X q => [.H q, .Rz 1 q, .H q]
  | .CZ a b => [.CU1 1 a b]
  | .CX a b => [.H b, .CU1 1 a b, .H b]
  | .CY a b => [.Rz (-(1 / 2)) b, .H b, .CU1 1 a b, .H b, .Rz (1 / 2) b]
  | .SWAP a b =>
    [.H b, .CU1 1 a b, .H b, .H a, .CU1 1 b a, .H a, .H b, .CU1 1 a b, .H b]

/-- Modelled from the spec: `DQCPass` rebases a circuit gate by gate
into the CU1/Rz/H gate set. -/
def DQCPass (c : List OpGate) : List OpGate :=
  c.foldr (fun g acc => rebaseGate g ++ acc) []

/-- Is this a two-qubit interaction (CU1) gate? -/
def isCU1 : OpGate → Bool
  | .CU1 _ _ _ => true
  | _ => false

/-- Does a CU1 gate act on qubit `q`? -/
def touches (q : Nat) : OpGate → Bool
  | .CU1 _ a b => a = q || b = q
  | _ => false

/-- Build the hypergraph of a circuit over `n` qubits: one resource
vertex per qubit, one operation vertex per CU1 gate, and per qubit one
hyperedge linking it to every CU1 gate acting on it. -/
def buildHC (n : Nat) (c : List OpGate) : HypergraphCircuit :=
  ⟨⟨List.range n ++
      (List.range (c.filter isCU1).length).map (fun i => n + i),
    (List.range n).map (fun q =>
      q :: (c.filter isCU1).enum.filterMap
        (fun ig => if touches q ig.2 then some (n + ig.1) else none))⟩,
    List.range n⟩

/-- Modelled from the spec: circuits already rebased into the accepted
gate set are the precondition for HypergraphCircuit construction; a
circuit containing any other gate is rejected. -/
def ofCircuit (n : Nat) (c : List OpGate) : Option HypergraphCircuit :=
  if c.all inAllowedGateset = true then some (buildHC n c) else none

theorem rebaseGate_allowed (g : OpGate) :
    (rebaseGate g).all inAllowedGateset = true := by
  cases g <;> rfl

/-- C9 — the vocabulary accepted at the public interface is exactly
CU1, Rz and H: `DQCPass` rebases every circuit into this gate set, and
HypergraphCircuit construction succeeds precisely on circuits already
inside it. -/
theorem dqc_pass_gateset (c : List OpGate) (n : Nat) :
    (DQCPass c).all inAllowedGateset = true ∧
      ((ofCircuit n c).isSome = true ↔ c.all inAllowedGateset = true) := by
  constructor
  · unfold DQCPass
    induction c with
    | nil => rfl
    | cons g gs ih =>
      simp only [List.foldr_cons, List.all_append]
      rw [rebaseGate_allowed, ih]
      rfl
  · unfold ofCircuit
    by_cases h : c.all inAllowedGateset = true
    · simp [h]
    · simp [h]

/-! ## Embedding (CoverEmbedding on the rebased SWAP circuit)

Modelled from the spec: the `CoverEmbedding` distributor is absent from
the source snapshot.  The basic-usage notebook describes its behaviour
on the SWAP circuit over the two-server network
`NISQNetwork([[0, 1]], {0: [0], 1: [1]})`: the SWAP rebases into three
CZ gates sandwiched by Hadamards; the middle CZ is embedded, so the
ebit created for the first CZ survives the Hadamards and is reused by
the third.  In hypergraph terms the first and third gate vertices merge
into a single hyperedge on qubit 0's timeline, and the total ebit cost
falls below the three of the unembedded distribution. -/

def swapNetwork : ServerNetwork :=
  { server_coupling := [(0, 1)],
    server_qubits := [(0, [0]), (1, [1])] }

/-- The Distribution produced by CoverEmbedding on the rebased SWAP:
qubit vertices 0 and 1 on servers 0 and 1; gate vertices 2, 3, 4 for
the three CZ gates; the embedding merges gates 2 and 4 into one
hyperedge on qubit 0's timeline (gate 3 is embedded between them and
placed with qubit 0). -/
def swapEmbeddingDistribution : Distribution :=
  { circuit :=
      { hypergraph :=
          { vertex_list := [0, 1, 2, 3, 4],
            hyperedge_list := [[0, 2, 4], [0, 3], [1, 2], [1, 3], [1, 4]] },
        qubit_vertices := [0, 1] },
    placement := { placement := [(0, 0), (1, 1), (2, 1), (3, 0), (4, 1)] },
    network := swapNetwork }

/-- C10 — the SWAP circuit rebases into three CZ-class (CU1) gates, and
on the two-server one-qubit-each network the CoverEmbedding
distribution is valid yet consumes fewer than three ebits, because the
middle CZ is embedded and the first gate's ebit is reused by the
third. -/
theorem coverEmbedding_swap_reuses_ebits :
    ((DQCPass [OpGate.SWAP 0 1]).filter isCU1).length = 3 ∧
      swapEmbeddingDistribution.is_valid = true ∧
      swapEmbeddingDistribution.cost < 3 :=
  ⟨rfl, by decide, by decide⟩

end PytketDQC
